import Mathlib

/-!
Verification of the SharedInventory (Singleton) subsystem.

Shallow embedding of `src/src/module/Prototypes/bundle.old.ts`, class
`Inventory` (lines 97-144).  JavaScript `Map<string, number>` is modelled
as an insertion-ordered association list `List (String × Int)`:
`Map.set` updates an existing key in place (keeping its position) and
appends a fresh key at the end, and `Map.entries` iterates in insertion
order, exactly as the list does.  JS numbers are modelled as `Int`; every
operation of the class uses only `+`, `-`, `<` and the `|| 0` default, all
of which are exact on integers (the spec's contracts are stated over
integer quantities).  The query methods (`getStockCount`, `getPrice`,
`getAllItems`) only read `this`, so they are embedded as pure functions
from the state; the mutators return the new state explicitly.
-/

namespace SharedInventory

/-- JS `Map.get`: first binding of the key in insertion order. -/
def mapGet (m : List (String × Int)) (k : String) : Option Int :=
  match m with
  | [] => none
  | (k', v') :: rest => if k' = k then some v' else mapGet rest k

/-- JS `Map.set`: overwrite an existing key in place, else append at the end. -/
def mapSet (m : List (String × Int)) (k : String) (v : Int) :
    List (String × Int) :=
  match m with
  | [] => [(k, v)]
  | (k', v') :: rest =>
      if k' = k then (k, v) :: rest else (k', v') :: mapSet rest k v

/-- JS `Map.has`, as a Bool. -/
def mapHas (m : List (String × Int)) (k : String) : Bool :=
  (mapGet m k).isSome

/-- The private fields of class `Inventory`: `items` (stock counts) and
`prices` (unit prices), both `Map<string, number>`. -/
structure Inventory where
  items : List (String × Int)
  prices : List (String × Int)
deriving Repr, DecidableEq

/-- The private constructor: both maps start empty. -/
def Inventory.empty : Inventory := ⟨[], []⟩

/-- Method `addItem(name, quantity, price)`:
`items.set(name, (items.get(name) || 0) + quantity); prices.set(name, price)`. -/
def Inventory.addItem (inv : Inventory) (name : String)
    (quantity price : Int) : Inventory :=
  { items := mapSet inv.items name ((mapGet inv.items name).getD 0 + quantity)
    prices := mapSet inv.prices name price }

/-- Method `sellItem(name, quantity)`: reads `currentQuantity = items.get(name) || 0`;
if `currentQuantity < quantity` it returns `false` leaving the state alone,
otherwise it writes `currentQuantity - quantity` back and returns `true`. -/
def Inventory.sellItem (inv : Inventory) (name : String)
    (quantity : Int) : Bool × Inventory :=
  let currentQuantity := (mapGet inv.items name).getD 0
  if currentQuantity < quantity then
    (false, inv)
  else
    (true, { inv with items := mapSet inv.items name (currentQuantity - quantity) })

/-- Method `getStockCount(name)`: `items.get(name) || 0`. -/
def Inventory.getStockCount (inv : Inventory) (name : String) : Int :=
  (mapGet inv.items name).getD 0

/-- Method `getPrice(name)`: `prices.get(name) || 0`. -/
def Inventory.getPrice (inv : Inventory) (name : String) : Int :=
  (mapGet inv.prices name).getD 0

/-- Method `getAllItems()`: `Array.from(items.entries())`, the entries in
insertion order. -/
def Inventory.getAllItems (inv : Inventory) : List (String × Int) :=
  inv.items

/-- One mutating call on the shared inventory, as issued by the demo UI:
either `addItem(name, quantity, price)` or `sellItem(name, quantity)`. -/
inductive Op
  | add (name : String) (quantity price : Int)
  | sell (name : String) (quantity : Int)
deriving Repr, DecidableEq

/-- Apply one call to a state (the returned Bool of `sellItem` is dropped). -/
def applyOp (inv : Inventory) : Op → Inventory
  | .add n q p => inv.addItem n q p
  | .sell n q => (inv.sellItem n q).2

/-- Run a call sequence from the initial (empty) inventory. -/
def runOps (ops : List Op) : Inventory :=
  ops.foldl applyOp Inventory.empty

/-- Whether the call is an `addItem` targeting `name`. -/
def Op.addsName (o : Op) (name : String) : Bool :=
  match o with
  | .add n _ _ => n = name
  | .sell _ _ => false

/-- Whether the call targets `name` at all (as `addItem` or `sellItem`). -/
def Op.mentions (o : Op) (name : String) : Bool :=
  match o with
  | .add n _ _ => n = name
  | .sell n _ => n = name

/-- Whether the call, if it is an `addItem`, carries a non-negative quantity. -/
def Op.addQuantityNonneg : Op → Bool
  | .add _ q _ => decide (0 ≤ q)
  | .sell _ _ => true

/-!
Model of the singleton access itself.  The module-level static field
`Inventory.instance` is a reference into a heap of allocated `Inventory`
objects; `getInstance` allocates a fresh object only when the field is
still `null` and otherwise hands back the stored reference.  Client code
(`SingletonDemo.tsx`) obtains a handle with `Inventory.getInstance()` at
arbitrary points and calls methods through it; a handle is a heap
reference, so a method call through handle `h` reads and writes the heap
cell `h` points to.
-/

/-- The observable result of one client command. -/
inductive Out
  | unit
  | bool (b : Bool)
  | num (x : Int)
  | entries (l : List (String × Int))
deriving Repr, DecidableEq

/-- One client command.  `h` is an index into the list of handles the
client has obtained so far (its `h`-th `getInstance()` result). -/
inductive Cmd
  | getInst
  | add (h : Nat) (name : String) (quantity price : Int)
  | sell (h : Nat) (name : String) (quantity : Int)
  | stock (h : Nat) (name : String)
  | price (h : Nat) (name : String)
  | allItems (h : Nat)
deriving Repr, DecidableEq

/-- Handle index used by a command, `none` for `getInstance` itself. -/
def Cmd.usedHandle : Cmd → Option Nat
  | .getInst => none
  | .add h _ _ _ => some h
  | .sell h _ _ => some h
  | .stock h _ => some h
  | .price h _ => some h
  | .allItems h => some h

/-- Well-formedness: every command uses a handle index below the number of
`getInstance` calls made before it. -/
def wfFrom (k : Nat) : List Cmd → Bool
  | [] => true
  | c :: cs =>
      match c with
      | .getInst => wfFrom (k + 1) cs
      | c => (c.usedHandle.getD 0 < k : Bool) && wfFrom k cs

/-- The process state: the heap of allocated `Inventory` objects, the
static field `Inventory.instance` (a heap reference or `null`), and the
list of handles the client has obtained so far, in order. -/
structure SysState where
  heap : List Inventory
  slot : Option Nat
  handles : List Nat
deriving Repr, DecidableEq

/-- Process start: nothing allocated, static field `null`, no handles. -/
def SysState.init : SysState := ⟨[], none, []⟩

/-- Static method `getInstance()`: construct the instance only if the
static field is `null`, then return the stored reference. -/
def getInstance (s : SysState) : SysState × Nat :=
  match s.slot with
  | some i => (s, i)
  | none =>
      (⟨s.heap ++ [Inventory.empty], some s.heap.length, s.handles⟩,
       s.heap.length)

/-- Dereference a handle (well-formed runs never go out of range). -/
def SysState.readInv (s : SysState) (i : Nat) : Inventory :=
  s.heap.getD i Inventory.empty

/-- Write back through a handle. -/
def SysState.writeInv (s : SysState) (i : Nat) (inv : Inventory) : SysState :=
  { s with heap := s.heap.set i inv }

/-- Execute one client command against the process state.  A command with
an out-of-range handle index leaves the state alone (well-formed runs
never take that branch). -/
def stepCmd (s : SysState) : Cmd → SysState × Out
  | .getInst =>
      let (s', i) := getInstance s
      ({ s' with handles := s'.handles ++ [i] }, Out.unit)
  | .add h n q p =>
      match s.handles.get? h with
      | none => (s, Out.unit)
      | some i => (s.writeInv i ((s.readInv i).addItem n q p), Out.unit)
  | .sell h n q =>
      match s.handles.get? h with
      | none => (s, Out.unit)
      | some i =>
          let r := (s.readInv i).sellItem n q
          (s.writeInv i r.2, Out.bool r.1)
  | .stock h n =>
      match s.handles.get? h with
      | none => (s, Out.unit)
      | some i => (s, Out.num ((s.readInv i).getStockCount n))
  | .price h n =>
      match s.handles.get? h with
      | none => (s, Out.unit)
      | some i => (s, Out.num ((s.readInv i).getPrice n))
  | .allItems h =>
      match s.handles.get? h with
      | none => (s, Out.unit)
      | some i => (s, Out.entries ((s.readInv i).getAllItems))

/-- Run a command list, collecting the per-command observations. -/
def runFrom (s : SysState) : List Cmd → SysState × List Out
  | [] => (s, [])
  | c :: cs =>
      let (s', o) := stepCmd s c
      let (s'', os) := runFrom s' cs
      (s'', o :: os)

/-- Run from process start. -/
def runCmds (cs : List Cmd) : SysState × List Out :=
  runFrom SysState.init cs

/-- The reference model: one single inventory mapping; `getInstance` is a
no-op and every command acts directly on it. -/
def refStep (inv : Inventory) : Cmd → Inventory × Out
  | .getInst => (inv, Out.unit)
  | .add _ n q p => (inv.addItem n q p, Out.unit)
  | .sell _ n q =>
      let r := inv.sellItem n q
      (r.2, Out.bool r.1)
  | .stock _ n => (inv, Out.num (inv.getStockCount n))
  | .price _ n => (inv, Out.num (inv.getPrice n))
  | .allItems _ => (inv, Out.entries inv.getAllItems)

/-- Run the reference model, collecting the same observations. -/
def refRunFrom (inv : Inventory) : List Cmd → Inventory × List Out
  | [] => (inv, [])
  | c :: cs =>
      let (inv', o) := refStep inv c
      let (inv'', os) := refRunFrom inv' cs
      (inv'', o :: os)

/-- Run the reference model from the empty inventory. -/
def refRunCmds (cs : List Cmd) : Inventory × List Out :=
  refRunFrom Inventory.empty cs

/-- Simulation relation between the process state and the reference
inventory: either nothing has been constructed yet, or the single
constructed object is heap cell 0, the static field points to it, it holds
exactly the reference inventory, and every handle handed out refers to it. -/
def Rel (s : SysState) (inv : Inventory) : Prop :=
  (s.slot = none ∧ s.heap = [] ∧ s.handles = [] ∧ inv = Inventory.empty)
  ∨ (s.slot = some 0 ∧ s.heap = [inv] ∧ ∀ h ∈ s.handles, h = 0)

/-! Basic association-list lemmas. -/

theorem mapGet_mapSet_self (m : List (String × Int)) (k : String) (v : Int) :
    mapGet (mapSet m k v) k = some v := by
  induction m with
  | nil => simp [mapSet, mapGet]
  | cons hd tl ih =>
      obtain ⟨k', v'⟩ := hd
      by_cases hk : k' = k
      · simp [mapSet, mapGet, hk]
      · simp [mapSet, mapGet, hk, ih]

theorem mapGet_mapSet_ne (m : List (String × Int)) (k k' : String) (v : Int)
    (h : k' ≠ k) : mapGet (mapSet m k v) k' = mapGet m k' := by
  induction m with
  | nil => simp [mapSet, mapGet, Ne.symm h]
  | cons hd tl ih =>
      obtain ⟨k₀, v₀⟩ := hd
      by_cases hk : k₀ = k
      · subst hk
        simp [mapSet, mapGet, Ne.symm h]
      · simp [mapSet, mapGet, hk, ih]

theorem mapSet_keys (m : List (String × Int)) (k : String) (v : Int) :
    (mapSet m k v).map Prod.fst =
      if mapHas m k then m.map Prod.fst else m.map Prod.fst ++ [k] := by
  induction m with
  | nil => simp [mapSet, mapHas, mapGet]
  | cons hd tl ih =>
      obtain ⟨k₀, v₀⟩ := hd
      by_cases hk : k₀ = k
      · simp [mapSet, mapHas, mapGet, hk]
      · simp only [mapSet, mapHas, mapGet, hk, if_false, List.map_cons]
        simp only [mapHas] at ih
        by_cases hs : (mapGet tl k).isSome
        · simp [hs] at ih ⊢
          simp [ih]
        · simp [hs] at ih ⊢
          simp [ih]

theorem mapGet_eq_none_iff (m : List (String × Int)) (k : String) :
    mapGet m k = none ↔ k ∉ m.map Prod.fst := by
  induction m with
  | nil => simp [mapGet]
  | cons hd tl ih =>
      obtain ⟨k₀, v₀⟩ := hd
      by_cases hk : k₀ = k
      · subst hk
        simp [mapGet]
      · simp [mapGet, hk, ih, Ne.symm hk]

theorem key_mem_of_mem (m : List (String × Int)) (k : String) (v : Int)
    (h : (k, v) ∈ m) : k ∈ m.map Prod.fst :=
  List.mem_map.mpr ⟨(k, v), h, rfl⟩

theorem mapGet_eq_some_iff_mem (m : List (String × Int)) (k : String) (v : Int)
    (hnd : (m.map Prod.fst).Nodup) : mapGet m k = some v ↔ (k, v) ∈ m := by
  induction m with
  | nil => simp [mapGet]
  | cons hd tl ih =>
      obtain ⟨k₀, v₀⟩ := hd
      simp only [List.map_cons, List.nodup_cons] at hnd
      by_cases hk : k₀ = k
      · subst hk
        have : (k₀, v) ∉ tl := fun hmem => hnd.1 (key_mem_of_mem tl k₀ v hmem)
        simp [mapGet, this, eq_comm]
      · simp [mapGet, hk, ih hnd.2, Ne.symm hk]

theorem nodup_keys_mapSet (m : List (String × Int)) (k : String) (v : Int)
    (h : (m.map Prod.fst).Nodup) : ((mapSet m k v).map Prod.fst).Nodup := by
  rw [mapSet_keys]
  by_cases hk : mapHas m k
  · simp [hk, h]
  · simp only [hk, if_false]
    have hknot : k ∉ m.map Prod.fst := by
      rw [← mapGet_eq_none_iff]
      simpa [mapHas, Option.isSome_iff_ne_none] using hk
    simp [List.nodup_append, h, hknot, List.disjoint_singleton]

theorem mem_mapSet_self (m : List (String × Int)) (k : String) (v : Int)
    (h : mapHas m k = true) : (k, v) ∈ mapSet m k v := by
  induction m with
  | nil => simp [mapHas, mapGet] at h
  | cons hd tl ih =>
      obtain ⟨k₀, v₀⟩ := hd
      by_cases hk : k₀ = k
      · simp [mapSet, hk]
      · simp only [mapHas, mapGet, hk, if_false] at h
        simp [mapSet, hk, ih h]

theorem mapHas_mapSet_of (m : List (String × Int)) (k k' : String) (v : Int)
    (h : mapHas m k' = true) : mapHas (mapSet m k v) k' = true := by
  by_cases hk : k' = k
  · subst hk
    simp [mapHas, mapGet_mapSet_self]
  · simpa [mapHas, mapGet_mapSet_ne m k k' v hk] using h

/-! Per-method lemmas about the embedded class. -/

theorem getStockCount_addItem_self (inv : Inventory) (n : String) (q p : Int) :
    (inv.addItem n q p).getStockCount n = inv.getStockCount n + q := by
  simp [Inventory.addItem, Inventory.getStockCount, mapGet_mapSet_self]

theorem getStockCount_addItem_ne (inv : Inventory) (n m : String) (q p : Int)
    (h : m ≠ n) : (inv.addItem n q p).getStockCount m = inv.getStockCount m := by
  simp [Inventory.addItem, Inventory.getStockCount, mapGet_mapSet_ne _ _ _ _ h]

theorem getPrice_addItem_self (inv : Inventory) (n : String) (q p : Int) :
    (inv.addItem n q p).getPrice n = p := by
  simp [Inventory.addItem, Inventory.getPrice, mapGet_mapSet_self]

/-- C2: for every state, name and integer quantity `q`, `sellItem(name, q)`
returns `true` iff `q ≤ getStockCount(name)` taken just before the call;
on `true` the post-call stock of `name` is the pre-call stock minus `q`;
on `false` the state (hence the stock of `name`) is unchanged. -/
theorem sellItem_correct (inv : Inventory) (name : String) (q : Int) :
    ((inv.sellItem name q).1 = true ↔ q ≤ inv.getStockCount name)
    ∧ ((inv.sellItem name q).1 = true →
        (inv.sellItem name q).2.getStockCount name = inv.getStockCount name - q)
    ∧ ((inv.sellItem name q).1 = false → (inv.sellItem name q).2 = inv) := by
  by_cases h : (mapGet inv.items name).getD 0 < q
  · simp [Inventory.sellItem, h, Inventory.getStockCount]
  · simp [Inventory.sellItem, h, Inventory.getStockCount, mapGet_mapSet_self]
    omega

/-- Witness: `sellItem_correct` at the spec's example
`add("Apple", 50, _)` then `sell("Apple", 5)`. -/
theorem sellItem_correct_witness :
    ((Inventory.empty.addItem "Apple" 50 2).sellItem "Apple" 5).2.getStockCount "Apple"
      = (Inventory.empty.addItem "Apple" 50 2).getStockCount "Apple" - 5 :=
  (sellItem_correct (Inventory.empty.addItem "Apple" 50 2) "Apple" 5).2.1 (by decide)

/-- C4: `addItem(name, quantity, price)` is total (the embedding is a total
function: no input is rejected and nothing is thrown); afterwards the stock
of `name` is its pre-call value (0 when absent, by `getStockCount`'s
default) plus `quantity`, and the price of `name` is overwritten to
`price` unconditionally. -/
theorem addItem_correct (inv : Inventory) (name : String) (q p : Int) :
    (inv.addItem name q p).getStockCount name = inv.getStockCount name + q
    ∧ (inv.addItem name q p).getPrice name = p :=
  ⟨getStockCount_addItem_self inv name q p, getPrice_addItem_self inv name q p⟩

/-- C5: from a state where `name` is absent, `add(name, q1, p1)` then
`add(name, q2, p2)` yields stock `q1 + q2` and price `p2` (last wins). -/
theorem add_accumulation (inv : Inventory) (name : String) (q1 p1 q2 p2 : Int)
    (habs : mapGet inv.items name = none) :
    ((inv.addItem name q1 p1).addItem name q2 p2).getStockCount name = q1 + q2
    ∧ ((inv.addItem name q1 p1).addItem name q2 p2).getPrice name = p2 := by
  constructor
  · rw [getStockCount_addItem_self, getStockCount_addItem_self]
    simp [Inventory.getStockCount, habs]
  · exact getPrice_addItem_self _ _ _ _

/-- Witness: `add_accumulation` on the empty inventory. -/
theorem add_accumulation_witness :
    ((Inventory.empty.addItem "Pear" 3 10).addItem "Pear" 4 20).getStockCount "Pear" = 3 + 4
    ∧ ((Inventory.empty.addItem "Pear" 3 10).addItem "Pear" 4 20).getPrice "Pear" = 20 :=
  add_accumulation Inventory.empty "Pear" 3 10 4 20 (by decide)

/-- C6 counterexample: the state reached from the initial inventory by the
single API call `addItem("A", -5, 1)` has stock −5, and on it
`sellItem("A", 0)` returns `false` (the guard `-5 < 0` fires), refuting
"for every reachable state, `sellItem(name, 0)` returns true". -/
theorem sellZero_claim_counterexample :
    ((Inventory.empty.addItem "A" (-5) 1).sellItem "A" 0).1 = false := by
  decide

/-- C6 amended: on every state whose stock of `name` is non-negative (in
particular every state reachable using only non-negative `addItem`
quantities), `sellItem(name, 0)` returns `true` and leaves the stock of
`name` unchanged. -/
theorem sellZero_noop (inv : Inventory) (name : String)
    (h : 0 ≤ inv.getStockCount name) :
    (inv.sellItem name 0).1 = true
    ∧ (inv.sellItem name 0).2.getStockCount name = inv.getStockCount name := by
  have hlt : ¬ ((mapGet inv.items name).getD 0 < 0) := by
    simpa [Inventory.getStockCount] using h
  simp [Inventory.sellItem, hlt, Inventory.getStockCount, mapGet_mapSet_self]

/-- Witness: `sellZero_noop` on the empty inventory. -/
theorem sellZero_noop_witness :
    (Inventory.empty.sellItem "A" 0).1 = true
    ∧ (Inventory.empty.sellItem "A" 0).2.getStockCount "A"
        = Inventory.empty.getStockCount "A" :=
  sellZero_noop Inventory.empty "A" (by decide)

/-- C9: `sellItem(n, q)` never touches the `prices` map and never changes
the stock of any name other than `n`, whichever Boolean it returns.  The
queries `getStockCount`, `getPrice` and `getAllItems` only read `this` in
the source, so the embedding types them as pure functions of the state:
they cannot modify it. -/
theorem sellItem_frame (inv : Inventory) (name : String) (q : Int) :
    (inv.sellItem name q).2.prices = inv.prices
    ∧ ∀ m, m ≠ name → (inv.sellItem name q).2.getStockCount m = inv.getStockCount m := by
  constructor
  · by_cases h : (mapGet inv.items name).getD 0 < q <;> simp [Inventory.sellItem, h]
  · intro m hm
    by_cases h : (mapGet inv.items name).getD 0 < q <;>
      simp [Inventory.sellItem, h, Inventory.getStockCount,
        mapGet_mapSet_ne _ _ _ _ hm]

/-- Witness: `sellItem_frame` at a concrete state and a different name. -/
theorem sellItem_frame_witness :
    ((Inventory.empty.addItem "A" 5 1).sellItem "A" 2).2.getStockCount "B"
      = (Inventory.empty.addItem "A" 5 1).getStockCount "B" :=
  (sellItem_frame (Inventory.empty.addItem "A" 5 1) "A" 2).2 "B" (by decide)

/-! Lemmas about call sequences. -/

theorem stock_nonneg_applyOp (inv : Inventory) (op : Op)
    (hinv : ∀ n, 0 ≤ inv.getStockCount n)
    (hop : op.addQuantityNonneg = true) :
    ∀ n, 0 ≤ (applyOp inv op).getStockCount n := by
  intro n
  cases op with
  | add m q p =>
      simp only [Op.addQuantityNonneg, decide_eq_true_eq] at hop
      by_cases hn : n = m
      · subst hn
        rw [applyOp, getStockCount_addItem_self]
        have := hinv n
        omega
      · rw [applyOp, getStockCount_addItem_ne _ _ _ _ _ hn]
        exact hinv n
  | sell m q =>
      by_cases hn : n = m
      · subst hn
        simp only [applyOp, Inventory.sellItem]
        by_cases hlt : (mapGet inv.items n).getD 0 < q
        · simp only [hlt, if_true]
          exact hinv n
        · simp only [hlt, if_false]
          simp [Inventory.getStockCount, mapGet_mapSet_self]
          omega
      · simp only [applyOp, Inventory.sellItem]
        by_cases hlt : (mapGet inv.items m).getD 0 < q
        · simp only [hlt, if_true]
          exact hinv n
        · simp only [hlt, if_false]
          simp [Inventory.getStockCount, mapGet_mapSet_ne _ _ _ _ hn]
          have := hinv n
          simpa [Inventory.getStockCount] using this

theorem stock_nonneg_foldl (ops : List Op) :
    ∀ inv, (∀ n, 0 ≤ inv.getStockCount n) →
    (∀ o ∈ ops, o.addQuantityNonneg = true) →
    ∀ n, 0 ≤ (ops.foldl applyOp inv).getStockCount n := by
  induction ops with
  | nil => intro inv hinv _ n; exact hinv n
  | cons o rest ih =>
      intro inv hinv hops n
      simp only [List.foldl_cons]
      refine ih (applyOp inv o) ?_ ?_ n
      · exact stock_nonneg_applyOp inv o hinv (hops o (by simp))
      · intro o' h'
        exact hops o' (by simp [h'])

/-- C3 counterexample: the single-call sequence `addItem("A", -5, 1)` (a
legal call: `addItem` validates nothing) drives the stock of `"A"` to −5,
refuting "stock is never negative after any sequence of add/sell calls". -/
theorem stock_nonneg_claim_counterexample :
    (runOps [Op.add "A" (-5) 1]).getStockCount "A" < 0 := by
  decide

/-- C3 amended: for every sequence of `addItem`/`sellItem` calls from the
initial empty inventory in which every `addItem` carries a non-negative
quantity, the stock of every name is non-negative after every prefix of
the sequence (`sellItem` quantities are unrestricted: the guard rejects
any sale that would overdraw, and a negative-quantity sale only adds). -/
theorem stock_nonneg_invariant (pre rest : List Op) (name : String)
    (h : ∀ o ∈ pre ++ rest, o.addQuantityNonneg = true) :
    0 ≤ (runOps pre).getStockCount name := by
  refine stock_nonneg_foldl pre Inventory.empty ?_ ?_ name
  · intro n
    simp [Inventory.getStockCount, Inventory.empty, mapGet]
  · intro o ho
    exact h o (List.mem_append_left rest ho)

/-- Witness: `stock_nonneg_invariant` on a concrete prefix. -/
theorem stock_nonneg_invariant_witness :
    0 ≤ (runOps [Op.add "A" 2 1, Op.sell "A" 1]).getStockCount "A" :=
  stock_nonneg_invariant [Op.add "A" 2 1, Op.sell "A" 1] [Op.sell "A" 9] "A"
    (by decide)

theorem untouched_name_foldl (ops : List Op) :
    ∀ inv name, (∀ o ∈ ops, o.mentions name = false) →
    mapGet inv.items name = none → mapGet inv.prices name = none →
    mapGet (ops.foldl applyOp inv).items name = none
    ∧ mapGet (ops.foldl applyOp inv).prices name = none := by
  induction ops with
  | nil => intro inv name _ hi hp; exact ⟨hi, hp⟩
  | cons o rest ih =>
      intro inv name hm hi hp
      simp only [List.foldl_cons]
      have hrest : ∀ o' ∈ rest, o'.mentions name = false :=
        fun o' h' => hm o' (by simp [h'])
      have hme := hm o (by simp)
      cases o with
      | add n q p =>
          simp only [Op.mentions, decide_eq_false_iff_not] at hme
          refine ih (applyOp inv (Op.add n q p)) name hrest ?_ ?_
          · simpa [applyOp, Inventory.addItem,
              mapGet_mapSet_ne _ _ _ _ (Ne.symm hme)] using hi
          · simpa [applyOp, Inventory.addItem,
              mapGet_mapSet_ne _ _ _ _ (Ne.symm hme)] using hp
      | sell n q =>
          simp only [Op.mentions, decide_eq_false_iff_not] at hme
          refine ih (applyOp inv (Op.sell n q)) name hrest ?_ ?_
          · by_cases hlt : (mapGet inv.items n).getD 0 < q
            · simpa [applyOp, Inventory.sellItem, hlt] using hi
            · simpa [applyOp, Inventory.sellItem, hlt,
                mapGet_mapSet_ne _ _ _ _ (Ne.symm hme)] using hi
          · by_cases hlt : (mapGet inv.items n).getD 0 < q
            · simpa [applyOp, Inventory.sellItem, hlt] using hp
            · simpa [applyOp, Inventory.sellItem, hlt] using hp

/-- C7 counterexample: `"X"` is never passed to `addItem` in the sequence
`[sellItem("X", -3)]`, yet afterwards `getStockCount("X")` is 3, not 0: a
successful sale of a negative quantity (the guard `0 < -3` is false)
writes `0 - (-3)` into the stock map. -/
theorem unknown_defaults_claim_counterexample :
    ([Op.sell "X" (-3)].all (fun o => !(o.addsName "X"))) = true
    ∧ (runOps [Op.sell "X" (-3)]).getStockCount "X" = 3 := by
  decide

/-- C7 amended: for every name that no call of the sequence targets
(neither as `addItem` nor as `sellItem`), `getStockCount` returns 0 and
`getPrice` returns 0; both queries are total functions in the embedding,
so no error is raised. -/
theorem unknown_item_defaults (ops : List Op) (name : String)
    (h : ∀ o ∈ ops, o.mentions name = false) :
    (runOps ops).getStockCount name = 0 ∧ (runOps ops).getPrice name = 0 := by
  have hc := untouched_name_foldl ops Inventory.empty name h rfl rfl
  rw [runOps] at *
  constructor
  · simp [Inventory.getStockCount, hc.1]
  · simp [Inventory.getPrice, hc.2]

/-- Witness: `unknown_item_defaults` with a sequence touching other names. -/
theorem unknown_item_defaults_witness :
    (runOps [Op.add "A" 1 1, Op.sell "A" 1]).getStockCount "X" = 0
    ∧ (runOps [Op.add "A" 1 1, Op.sell "A" 1]).getPrice "X" = 0 :=
  unknown_item_defaults [Op.add "A" 1 1, Op.sell "A" 1] "X" (by decide)

theorem mapHas_applyOp (inv : Inventory) (op : Op) (name : String)
    (h : mapHas inv.items name = true) :
    mapHas (applyOp inv op).items name = true := by
  cases op with
  | add n q p =>
      simp only [applyOp, Inventory.addItem]
      exact mapHas_mapSet_of _ _ _ _ h
  | sell n q =>
      simp only [applyOp, Inventory.sellItem]
      by_cases hlt : (mapGet inv.items n).getD 0 < q
      · simpa [hlt] using h
      · simp only [hlt, if_false]
        exact mapHas_mapSet_of _ _ _ _ h

theorem mapHas_foldl (ops : List Op) :
    ∀ inv name, mapHas inv.items name = true →
    mapHas (ops.foldl applyOp inv).items name = true := by
  induction ops with
  | nil => intro inv name h; exact h
  | cons o rest ih =>
      intro inv name h
      simp only [List.foldl_cons]
      exact ih (applyOp inv o) name (mapHas_applyOp inv o name h)

/-- C10: a name present in the stock map stays present under every further
`addItem`/`sellItem` call (`Map.set` never deletes a key), and in
particular selling an item down to stock 0 — selling exactly its current
stock — leaves it in `getAllItems()` paired with 0. -/
theorem keys_never_shrink (ops more : List Op) (name : String)
    (h : mapHas (runOps ops).items name = true) :
    mapHas (runOps (ops ++ more)).items name = true
    ∧ (name, 0) ∈ (((runOps ops).sellItem name
        ((runOps ops).getStockCount name)).2.getAllItems) := by
  constructor
  · rw [runOps, List.foldl_append]
    exact mapHas_foldl more _ name h
  · have hlt : ¬ ((mapGet (runOps ops).items name).getD 0
        < (mapGet (runOps ops).items name).getD 0) := lt_irrefl _
    simp only [Inventory.sellItem, Inventory.getStockCount, hlt, if_false,
      Inventory.getAllItems, sub_self]
    exact mem_mapSet_self _ _ _ h

/-- Witness: `keys_never_shrink` where `"A"` is added then sold out. -/
theorem keys_never_shrink_witness :
    mapHas (runOps ([Op.add "A" 2 1] ++ [Op.sell "A" 2])).items "A" = true
    ∧ ("A", 0) ∈ (((runOps [Op.add "A" 2 1]).sellItem "A"
        ((runOps [Op.add "A" 2 1]).getStockCount "A")).2.getAllItems) :=
  keys_never_shrink [Op.add "A" 2 1] [Op.sell "A" 2] "A" (by decide)

theorem nodup_keys_applyOp (inv : Inventory) (op : Op)
    (h : (inv.items.map Prod.fst).Nodup) :
    ((applyOp inv op).items.map Prod.fst).Nodup := by
  cases op with
  | add n q p =>
      simp only [applyOp, Inventory.addItem]
      exact nodup_keys_mapSet _ _ _ h
  | sell n q =>
      simp only [applyOp, Inventory.sellItem]
      by_cases hlt : (mapGet inv.items n).getD 0 < q
      · simpa [hlt] using h
      · simp only [hlt, if_false]
        exact nodup_keys_mapSet _ _ _ h

theorem nodup_keys_runOps (ops : List Op) :
    (((runOps ops).items).map Prod.fst).Nodup := by
  rw [runOps]
  have : ∀ inv : Inventory, (inv.items.map Prod.fst).Nodup →
      ((ops.foldl applyOp inv).items.map Prod.fst).Nodup := by
    induction ops with
    | nil => intro inv h; exact h
    | cons o rest ih =>
        intro inv h
        simp only [List.foldl_cons]
        exact ih (applyOp inv o) (nodup_keys_applyOp inv o h)
  exact this Inventory.empty (by simp [Inventory.empty])

theorem mapGet_eq_some_split (m : List (String × Int)) (k : String) (c : Int) :
    mapGet m k = some c ↔ (mapHas m k = true ∧ (mapGet m k).getD 0 = c) := by
  cases hm : mapGet m k <;> simp [mapHas, hm]

/-- C8: in every reachable state, `getAllItems()` lists exactly one pair
per name present in the stock map (the keys of the snapshot are pairwise
distinct), and a pair `(n, c)` occurs in it exactly when `n` is present
with `getStockCount(n) = c`.  The method only reads `this.items`, so the
embedding types it as a pure function of the state: it cannot modify it;
no ordering of the pairs is asserted. -/
theorem getAllItems_correct (ops : List Op) :
    (((runOps ops).getAllItems).map Prod.fst).Nodup
    ∧ ∀ n c, ((n, c) ∈ (runOps ops).getAllItems ↔
        (mapHas (runOps ops).items n = true ∧ (runOps ops).getStockCount n = c)) := by
  refine ⟨nodup_keys_runOps ops, ?_⟩
  intro n c
  rw [Inventory.getAllItems, Inventory.getStockCount,
    ← mapGet_eq_some_iff_mem _ _ _ (nodup_keys_runOps ops)]
  exact mapGet_eq_some_split _ _ _

/-- Witness: `getAllItems_correct` applied at a concrete run. -/
theorem getAllItems_correct_witness :
    ("A", 2) ∈ (runOps [Op.add "A" 2 1]).getAllItems :=
  ((getAllItems_correct [Op.add "A" 2 1]).2 "A" 2).mpr (by decide)

/-! The singleton refinement. -/

theorem runFrom_cons (s : SysState) (c : Cmd) (cs : List Cmd) :
    runFrom s (c :: cs)
      = ((runFrom (stepCmd s c).1 cs).1,
         (stepCmd s c).2 :: (runFrom (stepCmd s c).1 cs).2) := by
  simp [runFrom]

theorem refRunFrom_cons (inv : Inventory) (c : Cmd) (cs : List Cmd) :
    refRunFrom inv (c :: cs)
      = ((refRunFrom (refStep inv c).1 cs).1,
         (refStep inv c).2 :: (refRunFrom (refStep inv c).1 cs).2) := by
  simp [refRunFrom]

theorem handles_get_eq_zero (hs : List Nat) (hall : ∀ h ∈ hs, h = 0)
    (i : Nat) (hi : i < hs.length) : hs[i]? = some 0 := by
  rw [List.getElem?_eq_getElem hi]
  exact congrArg some (hall _ (List.getElem_mem hi))

theorem run_refines_ref (cs : List Cmd) :
    ∀ (s : SysState) (inv : Inventory), Rel s inv →
    wfFrom s.handles.length cs = true →
    (runFrom s cs).2 = (refRunFrom inv cs).2
    ∧ Rel (runFrom s cs).1 (refRunFrom inv cs).1 := by
  induction cs with
  | nil =>
      intro s inv hrel _
      exact ⟨rfl, hrel⟩
  | cons c rest ih =>
      intro s inv hrel hwf
      rcases hrel with ⟨h1, h2, h3, h4⟩ | ⟨h1, h2, h3⟩
      · subst h4
        cases c with
        | getInst =>
            have hstep : stepCmd s Cmd.getInst
                = (⟨[Inventory.empty], some 0, [0]⟩, Out.unit) := by
              simp [stepCmd, getInstance, h1, h2, h3]
            rw [runFrom_cons, refRunFrom_cons, hstep]
            dsimp only [refStep]
            have hrel' : Rel ⟨[Inventory.empty], some 0, [0]⟩ Inventory.empty :=
              Or.inr ⟨rfl, rfl, by simp⟩
            have hwf' : wfFrom ([0] : List Nat).length rest = true := by
              rw [h3] at hwf
              simpa [wfFrom] using hwf
            have hih := ih _ _ hrel' hwf'
            exact ⟨by rw [hih.1], hih.2⟩
        | add hIdx n q p =>
            rw [h3] at hwf
            simp [wfFrom, Cmd.usedHandle] at hwf
        | sell hIdx n q =>
            rw [h3] at hwf
            simp [wfFrom, Cmd.usedHandle] at hwf
        | stock hIdx n =>
            rw [h3] at hwf
            simp [wfFrom, Cmd.usedHandle] at hwf
        | price hIdx n =>
            rw [h3] at hwf
            simp [wfFrom, Cmd.usedHandle] at hwf
        | allItems hIdx =>
            rw [h3] at hwf
            simp [wfFrom, Cmd.usedHandle] at hwf
      · have hread : s.readInv 0 = inv := by
          simp [SysState.readInv, h2]
        cases c with
        | getInst =>
            have hstep : stepCmd s Cmd.getInst
                = ({ s with handles := s.handles ++ [0] }, Out.unit) := by
              simp [stepCmd, getInstance, h1]
            rw [runFrom_cons, refRunFrom_cons, hstep]
            dsimp only [refStep]
            have hrel' : Rel { s with handles := s.handles ++ [0] } inv := by
              refine Or.inr ⟨h1, h2, ?_⟩
              intro h hm
              rcases List.mem_append.mp hm with hm | hm
              · exact h3 h hm
              · simpa using hm
            have hwf' : wfFrom ({ s with handles := s.handles ++ [0] }
                : SysState).handles.length rest = true := by
              simp only [wfFrom] at hwf
              simpa [List.length_append] using hwf
            have hih := ih _ _ hrel' hwf'
            exact ⟨by rw [hih.1], hih.2⟩
        | add hIdx n q p =>
            simp only [wfFrom, Cmd.usedHandle, Option.getD_some, Bool.and_eq_true,
              decide_eq_true_eq] at hwf
            obtain ⟨hlt, hwf'⟩ := hwf
            have hget := handles_get_eq_zero s.handles h3 hIdx hlt
            have hstep : stepCmd s (Cmd.add hIdx n q p)
                = (s.writeInv 0 ((s.readInv 0).addItem n q p), Out.unit) := by
              simp [stepCmd, hget]
            have hwrite : s.writeInv 0 (inv.addItem n q p)
                = { s with heap := [inv.addItem n q p] } := by
              simp [SysState.writeInv, h2]
            rw [runFrom_cons, refRunFrom_cons, hstep, hread, hwrite]
            dsimp only [refStep]
            have hrel' : Rel { s with heap := [inv.addItem n q p] }
                (inv.addItem n q p) := Or.inr ⟨h1, rfl, h3⟩
            have hih := ih _ _ hrel' hwf'
            exact ⟨by rw [hih.1], hih.2⟩
        | sell hIdx n q =>
            simp only [wfFrom, Cmd.usedHandle, Option.getD_some, Bool.and_eq_true,
              decide_eq_true_eq] at hwf
            obtain ⟨hlt, hwf'⟩ := hwf
            have hget := handles_get_eq_zero s.handles h3 hIdx hlt
            have hstep : stepCmd s (Cmd.sell hIdx n q)
                = (s.writeInv 0 ((s.readInv 0).sellItem n q).2,
                   Out.bool ((s.readInv 0).sellItem n q).1) := by
              simp [stepCmd, hget]
            have hwrite : s.writeInv 0 ((inv.sellItem n q).2)
                = { s with heap := [(inv.sellItem n q).2] } := by
              simp [SysState.writeInv, h2]
            rw [runFrom_cons, refRunFrom_cons, hstep, hread, hwrite]
            dsimp only [refStep]
            have hrel' : Rel { s with heap := [(inv.sellItem n q).2] }
                ((inv.sellItem n q).2) := Or.inr ⟨h1, rfl, h3⟩
            have hih := ih _ _ hrel' hwf'
            exact ⟨by rw [hih.1], hih.2⟩
        | stock hIdx n =>
            simp only [wfFrom, Cmd.usedHandle, Option.getD_some, Bool.and_eq_true,
              decide_eq_true_eq] at hwf
            obtain ⟨hlt, hwf'⟩ := hwf
            have hget := handles_get_eq_zero s.handles h3 hIdx hlt
            have hstep : stepCmd s (Cmd.stock hIdx n)
                = (s, Out.num ((s.readInv 0).getStockCount n)) := by
              simp [stepCmd, hget]
            rw [runFrom_cons, refRunFrom_cons, hstep, hread]
            dsimp only [refStep]
            have hih := ih _ _ (Or.inr ⟨h1, h2, h3⟩ : Rel s inv) hwf'
            exact ⟨by rw [hih.1], hih.2⟩
        | price hIdx n =>
            simp only [wfFrom, Cmd.usedHandle, Option.getD_some, Bool.and_eq_true,
              decide_eq_true_eq] at hwf
            obtain ⟨hlt, hwf'⟩ := hwf
            have hget := handles_get_eq_zero s.handles h3 hIdx hlt
            have hstep : stepCmd s (Cmd.price hIdx n)
                = (s, Out.num ((s.readInv 0).getPrice n)) := by
              simp [stepCmd, hget]
            rw [runFrom_cons, refRunFrom_cons, hstep, hread]
            dsimp only [refStep]
            have hih := ih _ _ (Or.inr ⟨h1, h2, h3⟩ : Rel s inv) hwf'
            exact ⟨by rw [hih.1], hih.2⟩
        | allItems hIdx =>
            simp only [wfFrom, Cmd.usedHandle, Option.getD_some, Bool.and_eq_true,
              decide_eq_true_eq] at hwf
            obtain ⟨hlt, hwf'⟩ := hwf
            have hget := handles_get_eq_zero s.handles h3 hIdx hlt
            have hstep : stepCmd s (Cmd.allItems hIdx)
                = (s, Out.entries ((s.readInv 0).getAllItems)) := by
              simp [stepCmd, hget]
            rw [runFrom_cons, refRunFrom_cons, hstep, hread]
            dsimp only [refStep]
            have hih := ih _ _ (Or.inr ⟨h1, h2, h3⟩ : Rel s inv) hwf'
            exact ⟨by rw [hih.1], hih.2⟩

/-- C1: for every well-formed client program (each command addresses a
handle the client has already obtained from `getInstance`), the
observation after each command — the Boolean of every `sellItem`, the
value of every query — equals the one produced by running the same
program against one single reference inventory mapping, and all handles
ever returned by `getInstance` are equal: every handle references the
same underlying state, so a mutation through one handle is seen through
every other, whether obtained before or after. -/
theorem singleton_shared_state (cs : List Cmd) (hwf : wfFrom 0 cs = true) :
    (runCmds cs).2 = (refRunCmds cs).2
    ∧ ∀ h h', h ∈ (runCmds cs).1.handles → h' ∈ (runCmds cs).1.handles →
        h = h' := by
  have hrel : Rel SysState.init Inventory.empty :=
    Or.inl ⟨rfl, rfl, rfl, rfl⟩
  have hsim := run_refines_ref cs SysState.init Inventory.empty hrel hwf
  refine ⟨hsim.1, ?_⟩
  intro h h' hh hh'
  rcases hsim.2 with ⟨_, _, h3, _⟩ | ⟨_, _, h3⟩
  · rw [show (runCmds cs).1.handles = [] from h3] at hh
    simp at hh
  · rw [h3 h hh, h3 h' hh']

/-- Witness: `singleton_shared_state` on the spec's scenario — a handle
adds 50 Apples, a second, independently obtained handle sells 5, and the
first handle observes stock 45, exactly as the single reference mapping. -/
theorem singleton_shared_state_witness :
    (runCmds [Cmd.getInst, Cmd.add 0 "Apple" 50 2, Cmd.getInst,
        Cmd.sell 1 "Apple" 5, Cmd.stock 0 "Apple"]).2
      = (refRunCmds [Cmd.getInst, Cmd.add 0 "Apple" 50 2, Cmd.getInst,
          Cmd.sell 1 "Apple" 5, Cmd.stock 0 "Apple"]).2 :=
  (singleton_shared_state [Cmd.getInst, Cmd.add 0 "Apple" 50 2, Cmd.getInst,
      Cmd.sell 1 "Apple" 5, Cmd.stock 0 "Apple"] (by decide)).1

end SharedInventory
